import Mathlib

/-!
Verification of the memory/retrieval core of `infinity-orchestrator`
(`src/stacks/memory/vector_store.py` and `src/stacks/memory/rehydration.py`).

The Python code is shallowly embedded: text is `List Char`, Python dicts are
association lists (unique keys, insertion order), Python floats are `ℝ`,
fallible operations return `Except`/`Option`. Each definition mirrors one
function of the source; the comments name the function embedded.
-/

namespace InfinityMemory

/-! ## Tokenizer (`_tokenize`, `_TOKEN_RE = [a-zA-Z0-9_\-]+`) -/

/-- A character matched by the token regex class `[a-zA-Z0-9_\-]`.
`Char.isAlphanum` in Lean is exactly ASCII `[a-zA-Z0-9]`. -/
def isTokenChar (c : Char) : Bool :=
  c.isAlphanum || c = '_' || c = '-'

/-- Maximal runs of token characters, as `re.findall` returns them.
`acc` holds the current run reversed. -/
def findTokenRuns : List Char → List Char → List (List Char)
  | [], acc => if acc.isEmpty then [] else [acc.reverse]
  | c :: cs, acc =>
    if isTokenChar c then findTokenRuns cs (c :: acc)
    else if acc.isEmpty then findTokenRuns cs []
    else acc.reverse :: findTokenRuns cs []

/-- `_tokenize(text)`: lower-cased regex matches of length > 1. -/
def pyTokenize (text : List Char) : List (List Char) :=
  ((findTokenRuns text []).filter (fun t => 1 < t.length)).map (·.map Char.toLower)

/-! ## SparseEmbedder (`_tfidf_embed`) -/

/-- First-occurrence key list of a token sequence, the iteration order of
`collections.Counter` (insertion ordered). -/
def counterKeys : List (List Char) → List (List Char)
  | [] => []
  | t :: ts => t :: (counterKeys ts).filter (fun u => u ≠ t)

/-- `_tfidf_embed(text)`: `{term : tf * log1p(1/tf)}` with `tf = count/total`;
empty token sequence yields the empty mapping. -/
noncomputable def tfidfEmbed (text : List Char) : List (List Char × ℝ) :=
  let tokens := pyTokenize text
  if tokens.isEmpty then []
  else
    (counterKeys tokens).map fun term =>
      let tf : ℝ := (tokens.count term : ℝ) / (tokens.length : ℝ)
      (term, tf * Real.log (1 + 1 / tf))

/-! ## SimilarityEngine scoring (`_cosine_sparse`) -/

/-- The keys of a sparse vector (a Python dict modelled as an association
list with distinct keys, in insertion order). -/
def svKeys (v : List (List Char × ℝ)) : List (List Char) := v.map Prod.fst

/-- Dict access `v[k]`, with 0 for an absent key (used only on present keys
by the source; 0 is the neutral default for the sums below). -/
noncomputable def svGet (v : List (List Char × ℝ)) (k : List Char) : ℝ :=
  (v.lookup k).getD 0

/-- `_cosine_sparse(a, b)`. `common = set(a) & set(b)` is a Python set of
keys; its iteration order is immaterial to the commutative sum, so it is
modelled as a `Finset`. The magnitudes sum the squares of all stored values,
as `sum(v * v for v in a.values())` does. -/
noncomputable def cosineSparse (a b : List (List Char × ℝ)) : ℝ :=
  let common : Finset (List Char) := (svKeys a).toFinset ∩ (svKeys b).toFinset
  if common = ∅ then 0
  else
    let dot := ∑ k in common, svGet a k * svGet b k
    let magA := Real.sqrt ((a.map (fun p => p.2 * p.2)).sum)
    let magB := Real.sqrt ((b.map (fun p => p.2 * p.2)).sum)
    if magA = 0 ∨ magB = 0 then 0 else dot / (magA * magB)

/-! ### Lemmas about `counterKeys` -/

theorem counterKeys_mem (l : List (List Char)) (t : List Char) :
    t ∈ counterKeys l ↔ t ∈ l := by
  induction l with
  | nil => simp [counterKeys]
  | cons a as ih =>
    simp only [counterKeys, List.mem_cons, List.mem_filter]
    constructor
    · rintro (rfl | ⟨h, _⟩)
      · exact Or.inl rfl
      · exact Or.inr (ih.mp h)
    · rintro (rfl | h)
      · exact Or.inl rfl
      · by_cases hta : t = a
        · exact Or.inl hta
        · exact Or.inr ⟨ih.mpr h, by simpa using hta⟩

theorem counterKeys_nodup (l : List (List Char)) : (counterKeys l).Nodup := by
  induction l with
  | nil => simp [counterKeys]
  | cons a as ih =>
    simp only [counterKeys]
    refine List.Nodup.cons ?_ (ih.filter _)
    intro hmem
    have h2 := (List.mem_filter.mp hmem).2
    simp at h2

theorem lookup_map_key {β : Type} (f : List Char → β) (l : List (List Char))
    (hl : l.Nodup) (a : List Char) :
    (l.map (fun x => (x, f x))).lookup a = if a ∈ l then some (f a) else none := by
  induction l with
  | nil => simp [List.lookup]
  | cons x xs ih =>
    simp only [List.map_cons, List.lookup, List.mem_cons]
    by_cases hax : a = x
    · subst hax
      simp [List.lookup, beq_self_eq_true]
    · have hne : (a == x) = false := beq_eq_false_iff_ne.mpr hax
      simp only [hne, cond_false]
      rw [ih hl.of_cons]
      by_cases hmem : a ∈ xs <;> simp [hmem, hax]

/-- C1. The SparseEmbedder returns exactly the mapping sending each token `t`
(lower-cased regex matches of `[a-zA-Z0-9_\-]+` of length > 1) to
`w(t) = (c(t)/N) * ln (1 + N/c(t))` where `c(t)` is `t`'s count and `N` the
total token count; a text with an empty token sequence yields the empty
mapping. -/
theorem tfidf_embed_is_exact_mapping (text : List Char) :
    (pyTokenize text = [] → tfidfEmbed text = []) ∧
    ∀ t : List Char,
      (tfidfEmbed text).lookup t =
        if t ∈ pyTokenize text then
          some ((((pyTokenize text).count t : ℝ) / ((pyTokenize text).length : ℝ)) *
            Real.log (1 + ((pyTokenize text).length : ℝ) / ((pyTokenize text).count t : ℝ)))
        else none := by
  constructor
  · intro h
    simp [tfidfEmbed, h]
  · intro t
    by_cases h : pyTokenize text = []
    · simp [tfidfEmbed, h]
    · unfold tfidfEmbed
      simp only [List.isEmpty_iff, h, if_false]
      rw [lookup_map_key _ _ (counterKeys_nodup _) t]
      rw [if_congr (counterKeys_mem _ t) rfl rfl]
      split_ifs with hmem
      · rw [one_div_div]
      · rfl

/-! ### Lemmas about sparse-vector access -/

theorem svGet_cons_self (k : List Char) (x : ℝ) (v : List (List Char × ℝ)) :
    svGet ((k, x) :: v) k = x := by
  simp [svGet, List.lookup, beq_self_eq_true]

theorem svGet_cons_ne (k k' : List Char) (x : ℝ) (v : List (List Char × ℝ))
    (h : k' ≠ k) : svGet ((k, x) :: v) k' = svGet v k' := by
  have hne : (k' == k) = false := beq_eq_false_iff_ne.mpr h
  simp [svGet, List.lookup, hne]

theorem svGet_eq_zero_of_not_mem (v : List (List Char × ℝ)) (k : List Char)
    (h : k ∉ svKeys v) : svGet v k = 0 := by
  induction v with
  | nil => simp [svGet, List.lookup]
  | cons p ps ih =>
    obtain ⟨kx, x⟩ := p
    simp only [svKeys, List.map_cons, List.mem_cons] at h
    push_neg at h
    rw [svGet_cons_ne _ _ _ _ h.1]
    exact ih h.2

theorem svGet_nonneg (v : List (List Char × ℝ)) (k : List Char)
    (h : ∀ p ∈ v, 0 ≤ p.2) : 0 ≤ svGet v k := by
  induction v with
  | nil => simp [svGet, List.lookup]
  | cons p ps ih =>
    obtain ⟨kx, x⟩ := p
    by_cases hk : k = kx
    · subst hk
      rw [svGet_cons_self]
      exact h _ (List.mem_cons_self _ _)
    · rw [svGet_cons_ne _ _ _ _ hk]
      exact ih fun q hq => h q (List.mem_cons_of_mem _ hq)

/-- The list sum of `f` over a dict's values equals the `Finset` sum of
`f ∘ svGet` over its key set, when keys are distinct. -/
theorem sum_values_eq_sum_keys (f : ℝ → ℝ)
    (v : List (List Char × ℝ)) (hv : (svKeys v).Nodup) :
    (v.map (fun p => f p.2)).sum = ∑ k in (svKeys v).toFinset, f (svGet v k) := by
  induction v with
  | nil => simp [svKeys]
  | cons p ps ih =>
    obtain ⟨kx, x⟩ := p
    simp only [svKeys, List.map_cons] at hv ⊢
    have hnotmem : kx ∉ List.map Prod.fst ps := (List.nodup_cons.mp hv).1
    have hnd : (List.map Prod.fst ps).Nodup := (List.nodup_cons.mp hv).2
    rw [List.sum_cons, List.toFinset_cons,
      Finset.sum_insert (fun h => hnotmem (List.mem_toFinset.mp h)), svGet_cons_self]
    congr 1
    rw [ih hnd]
    simp only [svKeys]
    refine Finset.sum_congr rfl fun k hk => ?_
    have hkne : k ≠ kx := fun h => hnotmem (h ▸ List.mem_toFinset.mp hk)
    rw [svGet_cons_ne _ _ _ _ hkne]

/-- For sparse vectors with non-negative weights and distinct keys, the
cosine similarity lies in `[0, 1]`, and is 0 when the two vectors share no
terms or either has zero magnitude. -/
theorem cosine_sparse_bounds_aux (a b : List (List Char × ℝ))
    (ha : ∀ p ∈ a, 0 ≤ p.2) (hb : ∀ p ∈ b, 0 ≤ p.2)
    (hna : (svKeys a).Nodup) (hnb : (svKeys b).Nodup) :
    0 ≤ cosineSparse a b ∧ cosineSparse a b ≤ 1 ∧
    ((svKeys a).toFinset ∩ (svKeys b).toFinset = ∅ → cosineSparse a b = 0) ∧
    (Real.sqrt ((a.map (fun p => p.2 * p.2)).sum) = 0 ∨
       Real.sqrt ((b.map (fun p => p.2 * p.2)).sum) = 0 → cosineSparse a b = 0) := by
  have hsq : ∀ x : ℝ, x * x = x ^ 2 := fun x => (pow_two x).symm
  have hmagA' : (a.map (fun p => p.2 * p.2)).sum =
      ∑ k in (svKeys a).toFinset ∪ (svKeys b).toFinset, svGet a k ^ 2 := by
    rw [sum_values_eq_sum_keys (fun x => x * x) a hna]
    rw [Finset.sum_subset (Finset.subset_union_left ..)]
    · exact Finset.sum_congr rfl fun k _ => hsq _
    · intro k _ hk
      rw [svGet_eq_zero_of_not_mem a k (fun h => hk (List.mem_toFinset.mpr h))]
      ring
  have hmagB' : (b.map (fun p => p.2 * p.2)).sum =
      ∑ k in (svKeys a).toFinset ∪ (svKeys b).toFinset, svGet b k ^ 2 := by
    rw [sum_values_eq_sum_keys (fun x => x * x) b hnb]
    rw [Finset.sum_subset (Finset.subset_union_right ..)]
    · exact Finset.sum_congr rfl fun k _ => hsq _
    · intro k _ hk
      rw [svGet_eq_zero_of_not_mem b k (fun h => hk (List.mem_toFinset.mpr h))]
      ring
  have hdotS : ∑ k in (svKeys a).toFinset ∩ (svKeys b).toFinset, svGet a k * svGet b k =
      ∑ k in (svKeys a).toFinset ∪ (svKeys b).toFinset, svGet a k * svGet b k := by
    refine Finset.sum_subset
      ((Finset.inter_subset_left ..).trans (Finset.subset_union_left ..)) ?_
    intro k _ hk
    rw [Finset.mem_inter, not_and_or] at hk
    rcases hk with hk | hk
    · rw [svGet_eq_zero_of_not_mem a k (fun h => hk (List.mem_toFinset.mpr h))]
      ring
    · rw [svGet_eq_zero_of_not_mem b k (fun h => hk (List.mem_toFinset.mpr h))]
      ring
  have hdot_nonneg : 0 ≤ ∑ k in (svKeys a).toFinset ∩ (svKeys b).toFinset,
      svGet a k * svGet b k :=
    Finset.sum_nonneg fun k _ =>
      mul_nonneg (svGet_nonneg a k ha) (svGet_nonneg b k hb)
  have hcs : ∑ k in (svKeys a).toFinset ∩ (svKeys b).toFinset, svGet a k * svGet b k ≤
      Real.sqrt ((a.map (fun p => p.2 * p.2)).sum) *
        Real.sqrt ((b.map (fun p => p.2 * p.2)).sum) := by
    rw [hdotS, hmagA', hmagB']
    exact Real.sum_mul_le_sqrt_mul_sqrt _ _ _
  refine ⟨?_, ?_, ?_, ?_⟩
  · simp only [cosineSparse]
    split_ifs with h1 h2
    · exact le_refl 0
    · exact le_refl 0
    · exact div_nonneg hdot_nonneg
        (mul_nonneg (Real.sqrt_nonneg _) (Real.sqrt_nonneg _))
  · simp only [cosineSparse]
    split_ifs with h1 h2
    · exact zero_le_one
    · exact zero_le_one
    · push_neg at h2
      have hApos : 0 < Real.sqrt ((a.map (fun p => p.2 * p.2)).sum) :=
        lt_of_le_of_ne (Real.sqrt_nonneg _) (Ne.symm h2.1)
      have hBpos : 0 < Real.sqrt ((b.map (fun p => p.2 * p.2)).sum) :=
        lt_of_le_of_ne (Real.sqrt_nonneg _) (Ne.symm h2.2)
      rw [div_le_one (mul_pos hApos hBpos)]
      exact hcs
  · intro hempty
    simp [cosineSparse, hempty]
  · intro hmag
    simp only [cosineSparse]
    -- `split_ifs` discharges the second condition using `hmag` itself
    split_ifs with h1
    · rfl
    · rfl

/-- C3. Every sparse vector the SparseEmbedder produces has non-negative
weights and distinct keys, and for any such pair of vectors the cosine
similarity lies in `[0, 1]`; it is 0 whenever the two vectors share no terms
or either has zero magnitude. -/
theorem cosine_similarity_in_unit_interval :
    (∀ (text : List Char) (p : List Char × ℝ), p ∈ tfidfEmbed text → 0 ≤ p.2) ∧
    (∀ text : List Char, (svKeys (tfidfEmbed text)).Nodup) ∧
    (∀ a b : List (List Char × ℝ),
      (∀ p ∈ a, 0 ≤ p.2) → (∀ p ∈ b, 0 ≤ p.2) →
      (svKeys a).Nodup → (svKeys b).Nodup →
      0 ≤ cosineSparse a b ∧ cosineSparse a b ≤ 1 ∧
      ((svKeys a).toFinset ∩ (svKeys b).toFinset = ∅ → cosineSparse a b = 0) ∧
      (Real.sqrt ((a.map (fun p => p.2 * p.2)).sum) = 0 ∨
         Real.sqrt ((b.map (fun p => p.2 * p.2)).sum) = 0 → cosineSparse a b = 0)) := by
  refine ⟨?_, ?_, cosine_sparse_bounds_aux⟩
  · intro text p hp
    unfold tfidfEmbed at hp
    by_cases h : (pyTokenize text).isEmpty
    · rw [if_pos h] at hp
      cases hp
    · rw [if_neg h] at hp
      rcases List.mem_map.mp hp with ⟨t, ht, rfl⟩
      dsimp only
      have htf : (0 : ℝ) ≤
          ((pyTokenize text).count t : ℝ) / ((pyTokenize text).length : ℝ) := by
        positivity
      refine mul_nonneg htf (Real.log_nonneg ?_)
      have h1 : (0 : ℝ) ≤ 1 / (((pyTokenize text).count t : ℝ) /
          ((pyTokenize text).length : ℝ)) := by positivity
      linarith
  · intro text
    unfold tfidfEmbed svKeys
    by_cases h : (pyTokenize text).isEmpty
    · rw [if_pos h]
      exact List.nodup_nil
    · rw [if_neg h, List.map_map]
      have hid : (Prod.fst ∘ fun term : List Char =>
          (term,
            ((pyTokenize text).count term : ℝ) / ((pyTokenize text).length : ℝ) *
              Real.log
                (1 + 1 / (((pyTokenize text).count term : ℝ) /
                  ((pyTokenize text).length : ℝ))))) = id := rfl
      rw [hid, List.map_id]
      exact counterKeys_nodup _

/-! ## JSON values

The shape Python's `json` module produces: the JSONL store file, metadata
values, telemetry records and the org index are all such values. Numbers are
modelled as reals, matching the float model used for the embedding weights. -/

inductive JValue where
  | null : JValue
  | bool : Bool → JValue
  | num : ℝ → JValue
  | str : List Char → JValue
  | arr : List JValue → JValue
  | obj : List (List Char × JValue) → JValue

/-- Dict lookup on a JSON object's key/value list (`d[k]` / `d.get(k)`). -/
def jLookup (kvs : List (List Char × JValue)) (k : List Char) : Option JValue :=
  match kvs with
  | [] => none
  | (k', v) :: rest => if k' = k then some v else jLookup rest k

/-! ## Document schema (`Document`) -/

/-- The embedding dict `{"backend": ..., "sparse": ..., "dense": ...}` built
by `embed_text` / `_empty_embedding` (the well-typed shape every document the
code itself writes carries). -/
structure Embedding where
  backend : List Char
  sparse : List (List Char × ℝ)
  dense : Option (List ℝ)

/-- A stored document (`Document.__slots__`). -/
structure Document where
  id : List Char
  content : List Char
  embedding : Embedding
  metadata : List (List Char × JValue)
  timestamp : List Char
  correlation_id : List Char
  run_id : List Char

/-- The ambient effects `Document.__init__` consults: `datetime.now(...)`,
`str(uuid.uuid4())` and `os.environ.get("GITHUB_RUN_ID", "")`, passed in
explicitly. -/
structure Ambient where
  now : List Char
  uuid : List Char
  githubRunId : List Char

/-- Python's `a or b` on strings: `b` when `a` is empty (falsy). -/
def pyOrStr (a b : List Char) : List Char :=
  if a = [] then b else a

/-- `Document.__init__`: `timestamp or now`, `correlation_id or uuid4()`,
`run_id or GITHUB_RUN_ID`; `none` models Python `None`. -/
def mkDocument (amb : Ambient) (id content : List Char) (embedding : Embedding)
    (metadata : List (List Char × JValue)) (timestamp : Option (List Char))
    (correlation_id : Option (List Char)) (run_id : List Char) : Document :=
  { id := id, content := content, embedding := embedding, metadata := metadata,
    timestamp := pyOrStr (timestamp.getD []) amb.now,
    correlation_id := pyOrStr (correlation_id.getD []) amb.uuid,
    run_id := pyOrStr run_id amb.githubRunId }

/-- `embed_text(text)`: the sparse TF-IDF vector is always computed; a dense
vector is taken from the remote call's outcome (`denseResult`, `none` on any
failure, per P-007) only under the `openai`/`ollama` backends. -/
noncomputable def embedText (backend : List Char) (denseResult : Option (List ℝ))
    (text : List Char) : Embedding :=
  { backend := backend
    sparse := tfidfEmbed text
    dense :=
      if backend = "openai".toList ∨ backend = "ollama".toList then denseResult
      else none }

/-- `_empty_embedding()` (used when `skip_embed=True`). -/
def emptyEmbedding : Embedding :=
  { backend := "none".toList, sparse := [], dense := none }

/-! ## VectorStore

The in-memory index `self._index : dict[str, Document]` is an insertion
ordered association list with distinct keys. -/

/-- `self._index[k] = v`: replace in place if the key exists, else append. -/
def dictSet (k : List Char) (v : Document) :
    List (List Char × Document) → List (List Char × Document)
  | [] => [(k, v)]
  | (k', v') :: rest => if k' = k then (k, v) :: rest else (k', v') :: dictSet k v rest

/-- Arguments of one `VectorStore.upsert` call, with the per-call ambient
effects (clock, uuid, env) and the remote dense-embedding outcome attached. -/
structure UpsertEvent where
  doc_id : List Char
  content : List Char
  metadata : List (List Char × JValue)
  correlation_id : Option (List Char)
  run_id : List Char
  skip_embed : Bool
  backend : List Char
  denseResult : Option (List ℝ)
  amb : Ambient

/-- The `Document` built by `VectorStore.upsert` (no `timestamp` argument, so
the new document's timestamp is the current time). -/
noncomputable def upsertDoc (e : UpsertEvent) : Document :=
  mkDocument e.amb e.doc_id e.content
    (if e.skip_embed then emptyEmbedding else embedText e.backend e.denseResult e.content)
    e.metadata none e.correlation_id e.run_id

/-- `VectorStore.upsert`: build the document, replace any entry with the same
id, persist. Returns the new index (persistence is modelled by `flushLines`). -/
noncomputable def upsert (index : List (List Char × Document)) (e : UpsertEvent) :
    List (List Char × Document) :=
  dictSet e.doc_id (upsertDoc e) index

/-- `VectorStore.get`. -/
def storeGet (index : List (List Char × Document)) (doc_id : List Char) :
    Option Document :=
  index.lookup doc_id

/-- `VectorStore.count`. -/
def storeCount (index : List (List Char × Document)) : ℕ := index.length

/-! ## SimilarityEngine (`VectorStore.query`) -/

/-- Stable insertion step for a descending sort: `x` goes before the first
element whose key is not above `x`'s, hence before later-inserted equals. -/
def insertDescBy {α β : Type} [LinearOrder β] (f : α → β) (x : α) :
    List α → List α
  | [] => [x]
  | y :: ys => if f y ≤ f x then x :: y :: ys else y :: insertDescBy f x ys

/-- Stable descending sort by key, the semantics of Python's stable
`list.sort(key=..., reverse=True)` (any two stable descending sorts agree). -/
def sortDescBy {α β : Type} [LinearOrder β] (f : α → β) : List α → List α
  | [] => []
  | x :: xs => insertDescBy f x (sortDescBy f xs)

/-- One metadata-filter test: `all(d.metadata.get(k) == v for k, v in
metadata_filter.items())`; `get`'s `None` default coincides with JSON null. -/
def matchesFilter (d : Document) (flt : List (List Char × JValue)) : Prop :=
  ∀ kv ∈ flt, (jLookup d.metadata kv.1).getD JValue.null = kv.2

/-- The scored candidate list `[(cosine(q, doc), doc), ...]` in store order,
after the optional metadata filter. -/
noncomputable def scoredCandidates (index : List (List Char × Document))
    (query_text : List Char) (metadata_filter : Option (List (List Char × JValue))) :
    List (ℝ × Document) :=
  let q_sparse := tfidfEmbed query_text
  let candidates := index.map Prod.snd
  let candidates :=
    match metadata_filter with
    | none => candidates
    | some flt =>
      candidates.filter fun d => @decide (matchesFilter d flt) (Classical.propDecidable _)
  candidates.map fun d => (cosineSparse q_sparse d.embedding.sparse, d)

/-- `VectorStore.query`: empty store short-circuits to `[]`; otherwise score
all candidates, sort stably by score descending, return the first `top_k`. -/
noncomputable def query (index : List (List Char × Document)) (query_text : List Char)
    (top_k : ℕ) (metadata_filter : Option (List (List Char × JValue))) :
    List (ℝ × Document) :=
  if index.isEmpty then []
  else (sortDescBy Prod.fst (scoredCandidates index query_text metadata_filter)).take top_k

/-! ## Persistence (`VectorStore._flush` / `VectorStore._load`) -/

/-- `Embedding` as the JSON value `Document.to_dict` embeds. -/
noncomputable def Embedding.toJ (e : Embedding) : JValue :=
  .obj [("backend".toList, .str e.backend),
        ("sparse".toList, .obj (e.sparse.map fun p => (p.1, JValue.num p.2))),
        ("dense".toList,
          match e.dense with
          | some v => .arr (v.map JValue.num)
          | none => .null)]

/-- `Document.to_dict`. -/
noncomputable def Document.toDict (d : Document) : JValue :=
  .obj [("id".toList, .str d.id),
        ("content".toList, .str d.content),
        ("embedding".toList, d.embedding.toJ),
        ("metadata".toList, .obj d.metadata),
        ("timestamp".toList, .str d.timestamp),
        ("correlation_id".toList, .str d.correlation_id),
        ("run_id".toList, .str d.run_id)]

/-- Parse a serialized sparse vector back (`none` models the exceptions a
malformed record raises inside `Document.from_dict`'s caller). -/
def parseSparse : List (List Char × JValue) → Option (List (List Char × ℝ))
  | [] => some []
  | (k, .num x) :: rest => (parseSparse rest).map (fun r => (k, x) :: r)
  | _ => none

/-- Parse a serialized dense vector back. -/
def parseDense : List JValue → Option (List ℝ)
  | [] => some []
  | .num x :: rest => (parseDense rest).map (fun r => x :: r)
  | _ => none

/-- Parse the embedding dict of a stored record back into the well-typed
shape (records the code itself wrote always parse). -/
def parseEmbedding : JValue → Option Embedding
  | .obj kvs => do
    let backend ← match jLookup kvs "backend".toList with
      | some (.str s) => some s
      | _ => none
    let sparse ← match jLookup kvs "sparse".toList with
      | some (.obj skvs) => parseSparse skvs
      | _ => none
    let dense : Option (List ℝ) ←
      match jLookup kvs "dense".toList with
      | some .null => some none
      | some (.arr xs) => (parseDense xs).map some
      | _ => none
    some { backend := backend, sparse := sparse, dense := dense }
  | _ => none

/-- `Document.from_dict` on one parsed JSONL line, restricted to the
well-typed records the store itself writes; any other shape is `none`, which
`_load`'s bare `except` turns into a skipped line. -/
def fromDict (amb : Ambient) : JValue → Option Document
  | .obj kvs => do
    let id ← match jLookup kvs "id".toList with
      | some (.str s) => some s
      | _ => none
    let content ← match jLookup kvs "content".toList with
      | some (.str s) => some s
      | _ => none
    let emb ← match jLookup kvs "embedding".toList with
      | some j => parseEmbedding j
      | none => none
    let metadata ← match jLookup kvs "metadata".toList with
      | some (.obj mkvs) => some mkvs
      | none => some []
      | _ => none
    let timestamp : Option (List Char) ← match jLookup kvs "timestamp".toList with
      | some (.str s) => some (some s)
      | none => some none
      | _ => none
    let correlation_id : Option (List Char) ←
      match jLookup kvs "correlation_id".toList with
      | some (.str s) => some (some s)
      | none => some none
      | _ => none
    let run_id ← match jLookup kvs "run_id".toList with
      | some (.str s) => some s
      | none => some []
      | _ => none
    some (mkDocument amb id content emb metadata timestamp correlation_id run_id)
  | _ => none

/-- `VectorStore._flush`: one serialized record per document, index order. -/
noncomputable def flushLines (index : List (List Char × Document)) : List JValue :=
  index.map fun p => p.2.toDict

/-- `VectorStore._load`: parse each line, `self._index[doc.id] = doc`,
skipping silently any line that fails to parse. -/
def loadStore (amb : Ambient) (lines : List JValue) : List (List Char × Document) :=
  lines.foldl
    (fun idx line =>
      match fromDict amb line with
      | some doc => dictSet doc.id doc idx
      | none => idx)
    []

/-! ### Lemmas about the stable descending sort -/

theorem insertDescBy_perm {α β : Type} [LinearOrder β] (f : α → β) (x : α)
    (l : List α) : (insertDescBy f x l).Perm (x :: l) := by
  induction l with
  | nil => exact List.Perm.refl _
  | cons y ys ih =>
    by_cases h : f y ≤ f x
    · simp [insertDescBy, h]
    · simp only [insertDescBy, if_neg h]
      exact (ih.cons y).trans (List.Perm.swap x y ys)

theorem sortDescBy_perm {α β : Type} [LinearOrder β] (f : α → β) (l : List α) :
    (sortDescBy f l).Perm l := by
  induction l with
  | nil => exact List.Perm.refl _
  | cons x xs ih =>
    exact (insertDescBy_perm f x (sortDescBy f xs)).trans (ih.cons x)

theorem insertDescBy_pairwise {α β : Type} [LinearOrder β] (f : α → β) (x : α)
    (l : List α) (hl : l.Pairwise (fun a b => f b ≤ f a)) :
    (insertDescBy f x l).Pairwise (fun a b => f b ≤ f a) := by
  induction l with
  | nil => simp [insertDescBy]
  | cons y ys ih =>
    rcases List.pairwise_cons.mp hl with ⟨hy, hys⟩
    by_cases h : f y ≤ f x
    · simp only [insertDescBy, if_pos h]
      refine List.pairwise_cons.mpr ⟨?_, hl⟩
      intro z hz
      rcases List.mem_cons.mp hz with rfl | hz
      · exact h
      · exact (hy z hz).trans h
    · simp only [insertDescBy, if_neg h]
      refine List.pairwise_cons.mpr ⟨?_, ih hys⟩
      intro z hz
      have := (insertDescBy_perm f x ys).mem_iff.mp hz
      rcases List.mem_cons.mp this with rfl | hz'
      · exact le_of_not_le h
      · exact hy z hz'

theorem sortDescBy_pairwise {α β : Type} [LinearOrder β] (f : α → β) (l : List α) :
    (sortDescBy f l).Pairwise (fun a b => f b ≤ f a) := by
  induction l with
  | nil => simp [sortDescBy]
  | cons x xs ih => exact insertDescBy_pairwise f x _ ih

/-- Filtering on an exact key value commutes with the stable insertion:
elements passed over by the insertion have strictly larger keys. -/
theorem insertDescBy_filter_eq {α β : Type} [LinearOrder β] [DecidableEq β]
    (f : α → β) (x : α) (l : List α) (c : β) :
    (insertDescBy f x l).filter (fun a => decide (f a = c)) =
      if f x = c then x :: l.filter (fun a => decide (f a = c))
      else l.filter (fun a => decide (f a = c)) := by
  induction l with
  | nil =>
    by_cases h : f x = c <;> simp [insertDescBy, h]
  | cons y ys ih =>
    by_cases hplace : f y ≤ f x
    · simp only [insertDescBy, if_pos hplace]
      by_cases h : f x = c <;> simp [h]
    · simp only [insertDescBy, if_neg hplace]
      have hy : f y ≠ c → True := fun _ => trivial
      by_cases hx : f x = c
      · have hyc : ¬ (f y = c) := by
          intro hyc
          exact hplace (le_of_eq (hx ▸ hyc))
        simp only [if_pos hx] at ih ⊢
        simp [List.filter_cons, hyc, ih, hx]
      · simp only [if_neg hx] at ih ⊢
        simp [List.filter_cons, ih]

/-- Stability of the descending sort: the elements carrying any fixed key
appear in the sorted list exactly as they appear in the input. -/
theorem sortDescBy_filter_eq {α β : Type} [LinearOrder β] [DecidableEq β]
    (f : α → β) (l : List α) (c : β) :
    (sortDescBy f l).filter (fun a => decide (f a = c)) =
      l.filter (fun a => decide (f a = c)) := by
  induction l with
  | nil => simp [sortDescBy]
  | cons x xs ih =>
    rw [sortDescBy, insertDescBy_filter_eq]
    by_cases h : f x = c <;> simp [h, ih, List.filter_cons]

/-- C2. `query` returns at most `top_k` results; scores are descending; ties
keep the original store-iteration order (the sort is stable: filtering the
sorted candidate list on any fixed score gives the candidates with that score
in store order); the result is the `top_k`-prefix of a permutation of the
scored candidates; an empty store yields `[]` for every `top_k`. -/
theorem query_contract (index : List (List Char × Document)) (q : List Char) (k : ℕ) :
    (index = [] → query index q k none = []) ∧
    (query index q k none).length ≤ k ∧
    ((query index q k none).map Prod.fst).Pairwise (fun x y => y ≤ x) ∧
    query index q k none = (sortDescBy Prod.fst (scoredCandidates index q none)).take k ∧
    (sortDescBy Prod.fst (scoredCandidates index q none)).Perm
      (scoredCandidates index q none) ∧
    ∀ s : ℝ,
      (sortDescBy Prod.fst (scoredCandidates index q none)).filter
          (fun p => decide (p.1 = s)) =
        (scoredCandidates index q none).filter (fun p => decide (p.1 = s)) := by
  have hqdef : query index q k none =
      (sortDescBy Prod.fst (scoredCandidates index q none)).take k := by
    by_cases h : index.isEmpty
    · rw [List.isEmpty_iff] at h
      subst h
      simp [query, scoredCandidates, sortDescBy]
    · simp [query, h]
  refine ⟨?_, ?_, ?_, hqdef, sortDescBy_perm _ _, fun s => sortDescBy_filter_eq _ _ s⟩
  · intro h
    subst h
    simp [query]
  · rw [hqdef]
    exact (List.length_take _ _).le.trans (min_le_left _ _)
  · rw [hqdef]
    have hs := sortDescBy_pairwise (Prod.fst (β := Document)) (scoredCandidates index q none)
    have := hs.take (n := k)
    rw [List.pairwise_map]
    exact this

/-! ### C9: the similarity engine never reads the dense vectors -/

/-- A document with its dense embedding field erased; two documents are
"identical except in the dense field" when they agree under `eraseDense`. -/
def eraseDense (d : Document) : Document :=
  { d with embedding := { d.embedding with dense := none } }

theorem map_insertDescBy {α γ β : Type} [LinearOrder β] (f : α → β) (f' : γ → β)
    (g : α → γ) (hg : ∀ a, f' (g a) = f a) (x : α) (l : List α) :
    (insertDescBy f x l).map g = insertDescBy f' (g x) (l.map g) := by
  induction l with
  | nil => rfl
  | cons y ys ih =>
    by_cases h : f y ≤ f x
    · simp [insertDescBy, h, hg]
    · simp [insertDescBy, h, hg, ih]

theorem map_sortDescBy {α γ β : Type} [LinearOrder β] (f : α → β) (f' : γ → β)
    (g : α → γ) (hg : ∀ a, f' (g a) = f a) (l : List α) :
    (sortDescBy f l).map g = sortDescBy f' (l.map g) := by
  induction l with
  | nil => rfl
  | cons x xs ih => rw [sortDescBy, map_insertDescBy f f' g hg, ih, List.map_cons, sortDescBy]

/-- Mapping `eraseDense` over the scored candidates factors through the
dense-erased index: scores read only the sparse vector, the filter only the
metadata. -/
theorem scoredCandidates_eraseDense (index : List (List Char × Document))
    (q : List Char) (flt : Option (List (List Char × JValue))) :
    (scoredCandidates index q flt).map (fun p => (p.1, eraseDense p.2)) =
      scoredCandidates (index.map (fun p => (p.1, eraseDense p.2))) q flt := by
  cases flt with
  | none =>
    simp only [scoredCandidates, List.map_map]
    rfl
  | some f =>
    simp only [scoredCandidates, List.map_map, List.filter_map]
    rfl

/-- C9. The similarity engine never reads the dense component: two stores
whose documents agree except in the dense embedding fields produce rankings
with the same scores, document ids and order, for every query text, `top_k`
and metadata filter. -/
theorem query_ignores_dense (idx1 idx2 : List (List Char × Document))
    (q : List Char) (k : ℕ) (flt : Option (List (List Char × JValue)))
    (h : idx1.map (fun p => (p.1, eraseDense p.2)) =
      idx2.map (fun p => (p.1, eraseDense p.2))) :
    (query idx1 q k flt).map (fun p => (p.1, p.2.id)) =
      (query idx2 q k flt).map (fun p => (p.1, p.2.id)) := by
  have hlen : idx1.isEmpty = idx2.isEmpty := by
    have h1 := congrArg List.length h
    simp only [List.length_map] at h1
    cases idx1 <;> cases idx2 <;> simp_all
  -- the dense-erased query results agree
  have herase : (query idx1 q k flt).map (fun p => (p.1, eraseDense p.2)) =
      (query idx2 q k flt).map (fun p => (p.1, eraseDense p.2)) := by
    unfold query
    by_cases he : idx1.isEmpty
    · rw [if_pos he, if_pos (hlen ▸ he)]
    · rw [if_neg he, if_neg (hlen ▸ he), List.map_take, List.map_take,
        map_sortDescBy Prod.fst Prod.fst (fun p => (p.1, eraseDense p.2)) (fun _ => rfl),
        map_sortDescBy Prod.fst Prod.fst (fun p => (p.1, eraseDense p.2)) (fun _ => rfl),
        scoredCandidates_eraseDense, scoredCandidates_eraseDense, h]
  -- project from the erased pairs to (score, id); eraseDense keeps the id
  have := congrArg (List.map fun p : ℝ × Document => (p.1, p.2.id)) herase
  simpa [List.map_map, Function.comp, eraseDense] using this

/-- Witness for C9: a one-document store, with and without a dense vector. -/
theorem query_ignores_dense_witness :
    (query [(['a'], ⟨['a'], ['b'], ⟨['t'], [(['b'], 1)], none⟩, [], [], [], []⟩)]
        ['b'] 5 none).map (fun p => (p.1, p.2.id)) =
      (query [(['a'], ⟨['a'], ['b'], ⟨['t'], [(['b'], 1)], some [1, 2, 3]⟩, [], [], [], []⟩)]
        ['b'] 5 none).map (fun p => (p.1, p.2.id)) :=
  query_ignores_dense _ _ ['b'] 5 none rfl

/-! ### Lemmas about `dictSet`, and C7 -/

theorem lookup_dictSet_self (k : List Char) (v : Document)
    (idx : List (List Char × Document)) : (dictSet k v idx).lookup k = some v := by
  induction idx with
  | nil => simp [dictSet, List.lookup, beq_self_eq_true]
  | cons p rest ih =>
    obtain ⟨k', v'⟩ := p
    by_cases h : k' = k
    · subst h
      simp [dictSet, List.lookup, beq_self_eq_true]
    · have hne : (k == k') = false := beq_eq_false_iff_ne.mpr (Ne.symm h)
      simp [dictSet, h, List.lookup, hne, ih]

theorem dictSet_keys (k : List Char) (v : Document) (idx : List (List Char × Document)) :
    (dictSet k v idx).map Prod.fst =
      if k ∈ idx.map Prod.fst then idx.map Prod.fst else idx.map Prod.fst ++ [k] := by
  induction idx with
  | nil => simp [dictSet]
  | cons p rest ih =>
    obtain ⟨k', v'⟩ := p
    by_cases h : k' = k
    · subst h
      simp only [dictSet, List.map_cons]
      rw [if_true, List.map_cons, if_pos (List.mem_cons_self _ _)]
    · simp only [dictSet, if_neg h, List.map_cons, List.mem_cons]
      rw [ih]
      by_cases hmem : k ∈ rest.map Prod.fst
      · rw [if_pos hmem, if_pos (Or.inr hmem)]
      · rw [if_neg hmem, if_neg ?_]
        · simp
        · rintro (hk | hk)
          · exact h hk.symm
          · exact hmem hk

theorem dictSet_length (k : List Char) (v : Document) (idx : List (List Char × Document)) :
    (dictSet k v idx).length =
      if k ∈ idx.map Prod.fst then idx.length else idx.length + 1 := by
  have h1 : (dictSet k v idx).length = ((dictSet k v idx).map Prod.fst).length :=
    (List.length_map _ _).symm
  rw [h1, dictSet_keys]
  by_cases hmem : k ∈ idx.map Prod.fst <;> simp [hmem]

theorem mem_keys_dictSet (k : List Char) (v : Document)
    (idx : List (List Char × Document)) : k ∈ (dictSet k v idx).map Prod.fst := by
  rw [dictSet_keys]
  by_cases hmem : k ∈ idx.map Prod.fst <;> simp [hmem]

/-- The store invariant a Python dict keyed by `doc.id` guarantees: distinct
keys, and every entry is stored under its document's id. -/
def StoreWellFormed (index : List (List Char × Document)) : Prop :=
  (index.map Prod.fst).Nodup ∧ ∀ p ∈ index, p.1 = p.2.id

theorem dictSet_nodup_keys (k : List Char) (v : Document)
    (idx : List (List Char × Document)) (h : (idx.map Prod.fst).Nodup) :
    ((dictSet k v idx).map Prod.fst).Nodup := by
  rw [dictSet_keys]
  by_cases hmem : k ∈ idx.map Prod.fst
  · rwa [if_pos hmem]
  · rw [if_neg hmem]
    simp [List.nodup_append, h, hmem]

theorem dictSet_mem (k : List Char) (v : Document) (idx : List (List Char × Document))
    (p : List Char × Document) (hp : p ∈ dictSet k v idx) : p = (k, v) ∨ p ∈ idx := by
  induction idx with
  | nil => simpa [dictSet] using hp
  | cons q rest ih =>
    obtain ⟨k', v'⟩ := q
    by_cases h : k' = k
    · subst h
      rcases List.mem_cons.mp (by simpa [dictSet] using hp) with h | h
      · exact Or.inl h
      · exact Or.inr (List.mem_cons_of_mem _ h)
    · rcases List.mem_cons.mp (by simpa [dictSet, h] using hp) with h' | h'
      · exact Or.inr (h' ▸ List.mem_cons_self _ _)
      · rcases ih h' with h'' | h''
        · exact Or.inl h''
        · exact Or.inr (List.mem_cons_of_mem _ h'')

theorem wellFormed_upsert (index : List (List Char × Document)) (e : UpsertEvent)
    (h : StoreWellFormed index) : StoreWellFormed (upsert index e) := by
  refine ⟨dictSet_nodup_keys _ _ _ h.1, ?_⟩
  intro p hp
  rcases dictSet_mem _ _ _ _ hp with rfl | hp'
  · rfl
  · exact h.2 p hp'

/-- C7. A second `upsert` under the same id leaves `count()` unchanged,
`get(id)` returns exactly the document built from the second call's arguments
(total replacement of content, embedding, metadata and timestamp — no
merge), and the store keeps at most one document per id. -/
theorem upsert_replaces_totally (index : List (List Char × Document))
    (e1 e2 : UpsertEvent) (hid : e1.doc_id = e2.doc_id) :
    storeCount (upsert (upsert index e1) e2) = storeCount (upsert index e1) ∧
    storeGet (upsert (upsert index e1) e2) e2.doc_id = some (upsertDoc e2) ∧
    (upsertDoc e2).content = e2.content ∧
    (StoreWellFormed index → StoreWellFormed (upsert (upsert index e1) e2)) := by
  refine ⟨?_, lookup_dictSet_self _ _ _, rfl, ?_⟩
  · unfold upsert storeCount
    rw [dictSet_length, if_pos]
    rw [← hid]
    exact mem_keys_dictSet _ _ _
  · intro h
    exact wellFormed_upsert _ _ (wellFormed_upsert _ _ h)

/-- Witness for C7: two upserts of contents `"x"` then `"y"` under id `"a"`
into the empty store. -/
theorem upsert_replaces_totally_witness :
    storeCount (upsert (upsert []
        ⟨['a'], ['x'], [], none, [], true, ['t'], none, ⟨['n'], ['u'], ['g']⟩⟩)
        ⟨['a'], ['y'], [], none, [], true, ['t'], none, ⟨['n'], ['u'], ['g']⟩⟩) =
      storeCount (upsert []
        ⟨['a'], ['x'], [], none, [], true, ['t'], none, ⟨['n'], ['u'], ['g']⟩⟩) ∧
    storeGet (upsert (upsert []
        ⟨['a'], ['x'], [], none, [], true, ['t'], none, ⟨['n'], ['u'], ['g']⟩⟩)
        ⟨['a'], ['y'], [], none, [], true, ['t'], none, ⟨['n'], ['u'], ['g']⟩⟩) ['a'] =
      some (upsertDoc ⟨['a'], ['y'], [], none, [], true, ['t'], none, ⟨['n'], ['u'], ['g']⟩⟩) ∧
    (upsertDoc ⟨['a'], ['y'], [], none, [], true, ['t'], none, ⟨['n'], ['u'], ['g']⟩⟩).content =
      ['y'] ∧
    (StoreWellFormed [] → StoreWellFormed (upsert (upsert []
        ⟨['a'], ['x'], [], none, [], true, ['t'], none, ⟨['n'], ['u'], ['g']⟩⟩)
        ⟨['a'], ['y'], [], none, [], true, ['t'], none, ⟨['n'], ['u'], ['g']⟩⟩)) :=
  upsert_replaces_totally [] _ _ rfl

/-! ### C8: JSONL flush/load round trip -/

theorem parseSparse_roundtrip (l : List (List Char × ℝ)) :
    parseSparse (l.map fun p => (p.1, JValue.num p.2)) = some l := by
  induction l with
  | nil => rfl
  | cons p rest ih =>
    obtain ⟨k, x⟩ := p
    simp [parseSparse, ih]

theorem parseDense_roundtrip (l : List ℝ) :
    parseDense (l.map JValue.num) = some l := by
  induction l with
  | nil => rfl
  | cons x rest ih => simp [parseDense, ih]

theorem parseEmbedding_toJ (e : Embedding) : parseEmbedding e.toJ = some e := by
  obtain ⟨b, s, d⟩ := e
  cases d with
  | none => simp [Embedding.toJ, parseEmbedding, jLookup, parseSparse_roundtrip]
  | some v =>
    simp [Embedding.toJ, parseEmbedding, jLookup, parseSparse_roundtrip,
      parseDense_roundtrip]

/-- Reading back a record the store wrote reproduces the document up to
`Document.__init__`'s falsy-field defaulting (id and content always
survive verbatim). -/
theorem fromDict_toDict (amb : Ambient) (d : Document) :
    fromDict amb d.toDict =
      some (mkDocument amb d.id d.content d.embedding d.metadata
        (some d.timestamp) (some d.correlation_id) d.run_id) := by
  obtain ⟨i, c, e, m, t, ci, r⟩ := d
  simp [Document.toDict, fromDict, jLookup, parseEmbedding_toJ]

theorem dictSet_append (k : List Char) (v : Document)
    (acc : List (List Char × Document)) (h : k ∉ acc.map Prod.fst) :
    dictSet k v acc = acc ++ [(k, v)] := by
  induction acc with
  | nil => rfl
  | cons q rest ih =>
    obtain ⟨k', v'⟩ := q
    simp only [List.map_cons, List.mem_cons] at h
    push_neg at h
    have hne : ¬ k' = k := fun hh => h.1 hh.symm
    simp [dictSet, hne, ih h.2]

/-- Re-reading back the flushed file appends the reparsed documents in index
order, provided ids are distinct and each entry is keyed by its id. -/
theorem loadStore_flush_aux (amb' : Ambient) (idx acc : List (List Char × Document))
    (hdisj : ∀ p ∈ idx, p.1 ∉ acc.map Prod.fst)
    (hnd : (idx.map Prod.fst).Nodup)
    (hid : ∀ p ∈ idx, p.1 = p.2.id) :
    (flushLines idx).foldl
      (fun idx line =>
        match fromDict amb' line with
        | some doc => dictSet doc.id doc idx
        | none => idx) acc =
      acc ++ idx.map (fun p => (p.1,
        mkDocument amb' p.2.id p.2.content p.2.embedding p.2.metadata
          (some p.2.timestamp) (some p.2.correlation_id) p.2.run_id)) := by
  induction idx generalizing acc with
  | nil => simp [flushLines]
  | cons p rest ih =>
    obtain ⟨k, doc⟩ := p
    have hk : k = doc.id := hid _ (List.mem_cons_self _ _)
    rw [show flushLines ((k, doc) :: rest) = Document.toDict doc :: flushLines rest from rfl,
      List.foldl_cons, fromDict_toDict]
    have hkacc : doc.id ∉ acc.map Prod.fst := hk ▸ hdisj _ (List.mem_cons_self _ _)
    rw [show (match some (mkDocument amb' doc.id doc.content doc.embedding doc.metadata
        (some doc.timestamp) (some doc.correlation_id) doc.run_id) with
        | some doc => dictSet doc.id doc acc
        | none => acc) =
        dictSet doc.id (mkDocument amb' doc.id doc.content doc.embedding doc.metadata
          (some doc.timestamp) (some doc.correlation_id) doc.run_id) acc from rfl]
    rw [dictSet_append _ _ _ hkacc]
    have hnd' : (rest.map Prod.fst).Nodup := (List.nodup_cons.mp hnd).2
    have hknotin : k ∉ rest.map Prod.fst := (List.nodup_cons.mp hnd).1
    rw [ih (acc ++ [(doc.id, _)]) ?_ hnd' (fun q hq => hid q (List.mem_cons_of_mem _ hq))]
    · rw [List.append_assoc]
      simp [hk]
    · intro q hq
      simp only [List.map_append, List.mem_append, List.map_cons]
      push_neg
      refine ⟨fun hin => hdisj q (List.mem_cons_of_mem _ hq) hin, ?_⟩
      simp only [List.map_nil, List.mem_singleton]
      intro hqk
      exact hknotin (by rw [hk, ← hqk]; exact List.mem_map_of_mem Prod.fst hq)

/-- Well-formedness of every store reachable by upserts from the empty one. -/
theorem wellFormed_foldl_upsert (events : List UpsertEvent)
    (s : List (List Char × Document)) (hs : StoreWellFormed s) :
    StoreWellFormed (events.foldl upsert s) := by
  induction events generalizing s with
  | nil => exact hs
  | cons e rest ih => exact ih _ (wellFormed_upsert s e hs)

/-- C8. Upsert any sequence of documents into a fresh store, flush, and
reconstruct from the same file: the reconstructed index carries exactly the
same ids with the same contents. -/
theorem store_roundtrip (events : List UpsertEvent) (amb' : Ambient) :
    (loadStore amb' (flushLines (events.foldl upsert []))).map
        (fun p => (p.1, p.2.content)) =
      (events.foldl upsert []).map (fun p => (p.1, p.2.content)) := by
  obtain ⟨hnd, hid⟩ := wellFormed_foldl_upsert events [] ⟨List.nodup_nil, by simp⟩
  unfold loadStore
  rw [loadStore_flush_aux amb' _ [] (by simp) hnd hid]
  simp only [List.nil_append, List.map_map]
  rfl

/-! ## Text chunking (`_chunk_text`, `_HEADING_RE = ^#{1,6}\s` MULTILINE)

Text is a `List Char`. Python's `\s` and `str.split()`/`str.strip()`
whitespace are modelled on the ASCII range `[ \t\n\r\x0b\x0c]` (the inputs of
this repository are ASCII markdown). -/

def isPySpace (c : Char) : Bool :=
  c = ' ' || c = '\t' || c = '\n' || c = '\r' || c = '\x0b' || c = '\x0c'

/-- Length of the leading run of `#` characters. -/
def leadHashes : List Char → ℕ
  | '#' :: cs => leadHashes cs + 1
  | _ => 0

/-- Length of a `^#{1,6}\s` match starting at this position, if any: 1–6 `#`s
followed by one whitespace character. A run of 7 or more `#`s cannot match:
after at most 6 `#`s the regex requires `\s` but finds another `#`. -/
def headingMatchLen (l : List Char) : Option ℕ :=
  let k := leadHashes l
  if 1 ≤ k ∧ k ≤ 6 then
    match l.drop k with
    | c :: _ => if isPySpace c then some (k + 1) else none
    | [] => none
  else none

theorem headingMatchLen_bounds (l : List Char) (m : ℕ)
    (h : headingMatchLen l = some m) : 2 ≤ m ∧ m ≤ l.length := by
  unfold headingMatchLen at h
  by_cases hk : 1 ≤ leadHashes l ∧ leadHashes l ≤ 6
  · rw [if_pos hk] at h
    rcases hdrop : l.drop (leadHashes l) with _ | ⟨c, rest⟩
    · rw [hdrop] at h
      exact absurd h (by simp)
    · rw [hdrop] at h
      by_cases hs : isPySpace c
      · simp [hs] at h
        have hlen : l.length ≥ leadHashes l + 1 := by
          have h1 : (l.drop (leadHashes l)).length = l.length - leadHashes l :=
            List.length_drop _ _
          rw [hdrop] at h1
          simp only [List.length_cons] at h1
          omega
        omega
      · simp [hs] at h
  · rw [if_neg hk] at h
    exact absurd h (by simp)

/-- `re.split(_HEADING_RE, text)`: scan the text one character at a time; at
each line start where the heading pattern matches, close the current section
and consume exactly the matched marker (the `#`s and the single following
whitespace character — the rest of the heading line is NOT removed).
`skip > 0` means that many characters of a matched marker are still to be
consumed; `atStart` is true at position 0 and right after a newline (the
`re.MULTILINE` `^`); `acc` holds the current section reversed. -/
def splitHeadings : List Char → ℕ → Bool → List Char → List (List Char)
  | [], _, _, acc => [acc.reverse]
  | c :: cs, skip + 1, _, acc => splitHeadings cs skip (c == '\n') acc
  | c :: cs, 0, atStart, acc =>
    if atStart then
      match headingMatchLen (c :: cs) with
      | some m => acc.reverse :: splitHeadings cs (m - 1) (c == '\n') []
      | none => splitHeadings cs 0 (c == '\n') (c :: acc)
    else splitHeadings cs 0 (c == '\n') (c :: acc)

/-- Python `str.split()`: maximal runs of non-whitespace characters. -/
def pySplitWs : List Char → List Char → List (List Char)
  | [], acc => if acc.isEmpty then [] else [acc.reverse]
  | c :: cs, acc =>
    if isPySpace c then
      if acc.isEmpty then pySplitWs cs [] else acc.reverse :: pySplitWs cs []
    else pySplitWs cs (c :: acc)

/-- `" ".join(words)`. -/
def joinSpace : List (List Char) → List Char
  | [] => []
  | [w] => w
  | w :: ws => w ++ ' ' :: joinSpace ws

/-- Python sequence-slice index resolution (`a[i:j]` clamps, and a negative
index counts from the end). -/
def pyIdx (len : ℕ) (i : ℤ) : ℕ :=
  if i < 0 then ((len : ℤ) + i).toNat else min i.toNat len

/-- Python slice `a[i:j]`. -/
def pySlice {α : Type} (l : List α) (i j : ℤ) : List α :=
  (l.drop (pyIdx l.length i)).take (pyIdx l.length j - pyIdx l.length i)

/-- The inner `while start < len(words)` loop of `_chunk_text`, fuel-indexed:
`none` means the Python loop has not terminated within `fuel` iterations.
`start` is an `ℤ`: `start = end - overlap` goes negative when
`overlap > chunk_size`. A chunk is appended unless its `strip()` is empty,
i.e. unless every character is whitespace. -/
def chunkLoop (chunk_size overlap : ℕ) (words : List (List Char)) :
    ℕ → ℤ → List (List Char) → Option (List (List Char))
  | 0, _, _ => none
  | fuel + 1, start, chunks =>
    if start < (words.length : ℤ) then
      let e : ℤ := min (start + chunk_size) (words.length : ℤ)
      let chunk := joinSpace (pySlice words start e)
      let chunks' := if chunk.all isPySpace then chunks else chunks ++ [chunk]
      if (words.length : ℤ) ≤ e then some chunks'
      else chunkLoop chunk_size overlap words fuel (e - overlap) chunks'
    else some chunks

/-- `_chunk_text(text, chunk_size, overlap)`: split at heading markers, run
the window loop on each section's words (empty sections skipped), and fall
back to the raw `chunk_size * 6`-character prefix when no chunk was produced
(`_CHUNK_FALLBACK_MULTIPLIER = 6`). Fuel bounds each section's loop. -/
def chunkTextFuel (fuel : ℕ) (text : List Char) (chunk_size overlap : ℕ) :
    Option (List (List Char)) :=
  ((splitHeadings text 0 true []).foldlM
    (fun chunks sec =>
      let words := pySplitWs sec []
      if words.isEmpty then pure chunks
      else chunkLoop chunk_size overlap words fuel 0 chunks)
    []).map
    fun chunks => if chunks.isEmpty then [text.take (chunk_size * 6)] else chunks

/-! ### C5: what the heading split removes -/

/-- A heading marker as matched by `_HEADING_RE`: 1–6 `#`s and exactly one
whitespace character. -/
def IsHeadingMarker (m : List Char) : Prop :=
  ∃ k c, 1 ≤ k ∧ k ≤ 6 ∧ isPySpace c ∧ m = List.replicate k '#' ++ [c]

/-- `SplitsOn secs t`: interleaving the sections with one heading marker
between each adjacent pair reassembles `t` — i.e. the split removed exactly
the matched markers and nothing else. -/
inductive SplitsOn : List (List Char) → List Char → Prop
  | single (s : List Char) : SplitsOn [s] s
  | cons (s m t : List Char) (rest : List (List Char)) :
      IsHeadingMarker m → SplitsOn rest t → SplitsOn (s :: rest) (s ++ (m ++ t))

theorem leadHashes_le_length (l : List Char) : leadHashes l ≤ l.length := by
  induction l with
  | nil => simp [leadHashes]
  | cons c cs ih =>
    by_cases h : c = '#'
    · subst h
      simp only [leadHashes, List.length_cons]
      omega
    · have : leadHashes (c :: cs) = 0 := by
        unfold leadHashes
        split
        · next heq => exact absurd (List.cons_eq_cons.mp heq).1 h
        · rfl
      omega

theorem leadHashes_take (l : List Char) :
    l.take (leadHashes l) = List.replicate (leadHashes l) '#' := by
  induction l with
  | nil => simp [leadHashes]
  | cons c cs ih =>
    by_cases h : c = '#'
    · subst h
      simp only [leadHashes, List.take_succ_cons, List.replicate_succ]
      rw [ih]
    · have h0 : leadHashes (c :: cs) = 0 := by
        unfold leadHashes
        split
        · next heq => exact absurd (List.cons_eq_cons.mp heq).1 h
        · rfl
      simp [h0]

theorem headingMatchLen_marker (l : List Char) (m : ℕ)
    (h : headingMatchLen l = some m) : IsHeadingMarker (l.take m) := by
  unfold headingMatchLen at h
  by_cases hk : 1 ≤ leadHashes l ∧ leadHashes l ≤ 6
  · rw [if_pos hk] at h
    rcases hdrop : l.drop (leadHashes l) with _ | ⟨c, rest⟩
    · rw [hdrop] at h
      exact absurd h (by simp)
    · rw [hdrop] at h
      by_cases hs : isPySpace c
      · simp [hs] at h
        refine ⟨leadHashes l, c, hk.1, hk.2, hs, ?_⟩
        rw [← h, List.take_add, leadHashes_take, hdrop, List.take_cons, List.take_zero]
        exact Nat.one_pos
      · simp [hs] at h
  · rw [if_neg hk] at h
    exact absurd h (by simp)

theorem splitHeadings_splitsOn_aux (l : List Char) (skip : ℕ) (atStart : Bool)
    (acc : List Char) :
    SplitsOn (splitHeadings l skip atStart acc) (acc.reverse ++ l.drop skip) := by
  induction l, skip, atStart, acc using splitHeadings.induct with
  | case1 skip atStart acc =>
    rw [splitHeadings]
    rw [show ([] : List Char).drop skip = [] from List.drop_nil, List.append_nil]
    exact SplitsOn.single _
  | case2 c cs skip atStart acc ih =>
    rw [splitHeadings]
    simpa using ih
  | case3 c cs acc m heq ih =>
    rw [splitHeadings, if_pos rfl]
    simp only [heq]
    have hm := headingMatchLen_bounds _ _ heq
    rw [List.drop_zero]
    rw [show acc.reverse ++ (c :: cs) =
        acc.reverse ++ ((c :: cs).take m ++ cs.drop (m - 1)) from by
      rw [show cs.drop (m - 1) = (c :: cs).drop m from by
          rcases Nat.exists_eq_add_of_le hm.1 with ⟨j, hj⟩
          subst hj
          simp [List.drop_succ_cons, Nat.add_comm]
        ]
      rw [List.take_append_drop]]
    exact SplitsOn.cons _ _ _ _ (headingMatchLen_marker _ _ heq) (by simpa using ih)
  | case4 c cs acc heq ih =>
    rw [splitHeadings, if_pos rfl]
    simp only [heq]
    simpa [List.reverse_cons, List.append_assoc] using ih
  | case5 c cs atStart acc h ih =>
    rw [splitHeadings, if_neg h]
    simpa [List.reverse_cons, List.append_assoc] using ih

/-- C5 (amended). The heading split removes exactly the matched heading
markers (1–6 `#`s plus the single following whitespace character): the
sections interleaved with those markers reassemble the input, so the rest of
each heading line stays in its section. -/
theorem chunk_split_discards_only_markers (text : List Char) :
    SplitsOn (splitHeadings text 0 true []) text := by
  simpa using splitHeadings_splitsOn_aux text 0 true []

/-- C5 counterexample: for `"# Title\nalpha beta"` the chunker emits the
single chunk `"Title alpha beta"`, and `Title` — a word of the heading
line `"# Title"` — is a word of that chunk. -/
theorem chunk_heading_word_in_chunk :
    chunkTextFuel 20 "# Title\nalpha beta".toList 512 64 =
      some ["Title alpha beta".toList] ∧
    "Title".toList ∈ pySplitWs "# Title".toList [] ∧
    "Title".toList ∈ pySplitWs "Title alpha beta".toList [] := by
  decide

/-! ### C4: window arithmetic of the chunk loop -/

/-- The windows the source loop emits when `overlap < chunk_size`: starts
advance by `chunk_size - overlap`, and the first window whose end reaches the
section end is the last one. -/
def refWindows (chunk_size overlap : ℕ) (words : List (List Char)) (start : ℕ) :
    List (List Char) :=
  if h : start < words.length ∧ overlap < chunk_size then
    let e := min (start + chunk_size) words.length
    let chunk := joinSpace ((words.drop start).take (e - start))
    if words.length ≤ e then [chunk]
    else chunk :: refWindows chunk_size overlap words (start + (chunk_size - overlap))
  else []
termination_by words.length - start
decreasing_by
  have h1 := h.1
  have h2 := h.2
  omega

/-- Modelled from claim C4's words: one window per start offset that is a
multiple of `chunkSizeWords - overlapWords` and lies strictly before the end
of the section. -/
def claimWindowStarts (chunk_size overlap len : ℕ) : List ℕ :=
  (List.range len).filter (fun s => s % (chunk_size - overlap) = 0)

/-- C4 counterexample: a single section of 10 words with `chunk_size = 5`,
`overlap = 2`. The claim's stopping rule ("until the window would start at
or past the end") yields windows at 0, 3, 6 and 9 — four chunks — but the
source loop breaks as soon as a window's end reaches the section end and
emits only three. -/
theorem chunk_text_window_counterexample :
    (chunkTextFuel 20 "a b c d e f g h i j".toList 5 2).map List.length = some 3 ∧
    chunkTextFuel 20 "a b c d e f g h i j".toList 5 2 =
      some ["a b c d e".toList, "d e f g h".toList, "g h i j".toList] ∧
    claimWindowStarts 5 2 10 = [0, 3, 6, 9] := by
  refine ⟨?_, ?_, ?_⟩ <;> decide

theorem pySlice_nat {α : Type} (l : List α) (a b : ℕ) (ha : a ≤ l.length)
    (hb : b ≤ l.length) :
    pySlice l (a : ℤ) (b : ℤ) = (l.drop a).take (b - a) := by
  unfold pySlice pyIdx
  rw [if_neg (by omega : ¬(a : ℤ) < 0), if_neg (by omega : ¬(b : ℤ) < 0)]
  rw [Int.toNat_ofNat, Int.toNat_ofNat, min_eq_left ha, min_eq_left hb]

theorem joinSpace_not_all_space (w : List Char) (ws : List (List Char))
    (hw : w ≠ []) (hns : w.all (fun ch => !isPySpace ch)) :
    (joinSpace (w :: ws)).all isPySpace = false := by
  rcases w with _ | ⟨c, crest⟩
  · exact absurd rfl hw
  have hc : isPySpace c = false := by
    have := List.all_eq_true.mp hns c (List.mem_cons_self _ _)
    simpa using this
  cases ws with
  | nil => simp [joinSpace, hc]
  | cons w2 ws2 => simp [joinSpace, hc]

/-- With `overlap < chunk_size` and real words (nonempty, whitespace-free —
exactly what `str.split` yields), the fuel-indexed loop terminates within
`words.length - start + 1` iterations and emits the reference windows. -/
theorem chunkLoop_eq_refWindows (c o : ℕ) (ho : o < c) (words : List (List Char))
    (hwords : ∀ w ∈ words, w ≠ [] ∧ w.all (fun ch => !isPySpace ch))
    (fuel : ℕ) : ∀ (start : ℕ) (chunks : List (List Char)),
    words.length - start + 1 ≤ fuel →
    chunkLoop c o words fuel (start : ℤ) chunks =
      some (chunks ++ refWindows c o words start) := by
  induction fuel with
  | zero => intro start chunks hfuel; omega
  | succ fuel ih =>
    intro start chunks hfuel
    by_cases hlt : start < words.length
    · rw [chunkLoop]
      rw [if_pos (by exact_mod_cast hlt)]
      dsimp only
      have hcast : min ((start : ℤ) + (c : ℤ)) ((words.length : ℤ)) =
          ((min (start + c) words.length : ℕ) : ℤ) := by
        push_cast
        rfl
      have heN_le : min (start + c) words.length ≤ words.length := min_le_right _ _
      have heN_gt : start < min (start + c) words.length := by omega
      have hslice : pySlice words ((start : ℤ)) (min ((start : ℤ) + (c : ℤ)) ((words.length : ℤ))) =
          (words.drop start).take (min (start + c) words.length - start) := by
        rw [hcast]
        exact pySlice_nat words start _ (le_of_lt hlt) heN_le
      -- the window is non-empty, hence not all-whitespace
      have hlen_slice :
          ((words.drop start).take (min (start + c) words.length - start)).length =
            min (start + c) words.length - start := by
        rw [List.length_take, List.length_drop]
        omega
      have hne : (words.drop start).take (min (start + c) words.length - start) ≠ [] := by
        intro hnil
        rw [hnil] at hlen_slice
        simp at hlen_slice
        omega
      have hnotall :
          (joinSpace ((words.drop start).take (min (start + c) words.length - start))).all
            isPySpace = false := by
        rcases List.exists_cons_of_ne_nil hne with ⟨w, ws, hcons⟩
        rw [hcons]
        have hwmem : w ∈ words := by
          have h1 : w ∈ (words.drop start).take (min (start + c) words.length - start) := by
            rw [hcons]; exact List.mem_cons_self _ _
          exact List.drop_subset _ _ (List.take_subset _ _ h1)
        exact joinSpace_not_all_space w ws (hwords w hwmem).1 (hwords w hwmem).2
      rw [hslice, hnotall]
      simp only [Bool.false_eq_true, if_false]
      by_cases hend : words.length ≤ min (start + c) words.length
      · rw [if_pos (by rw [hcast]; exact_mod_cast hend)]
        rw [show refWindows c o words start =
            [joinSpace ((words.drop start).take (min (start + c) words.length - start))] from by
          rw [refWindows, dif_pos ⟨hlt, ho⟩]
          dsimp only
          rw [if_pos hend]]
      · rw [if_neg (by rw [hcast]; exact_mod_cast hend)]
        have hstep : min ((start : ℤ) + (c : ℤ)) ((words.length : ℤ)) - (o : ℤ) =
            ((start + (c - o) : ℕ) : ℤ) := by
          rw [hcast]
          have heq : min (start + c) words.length = start + c := by omega
          rw [heq]
          push_cast
          omega
        rw [hstep]
        rw [show refWindows c o words start =
            joinSpace ((words.drop start).take (min (start + c) words.length - start)) ::
              refWindows c o words (start + (c - o)) from by
          rw [refWindows, dif_pos ⟨hlt, ho⟩]
          dsimp only
          rw [if_neg hend]]
        rw [ih (start + (c - o)) _ (by omega)]
        simp [List.append_assoc]
    · rw [chunkLoop, if_neg (by exact_mod_cast hlt)]
      rw [refWindows, dif_neg (by intro hcon; exact hlt hcon.1)]
      simp

/-- C4 (amended). Within a section whose words are real `str.split` words
(nonempty, whitespace-free), the loop emits windows of `chunk_size` words
whose starts advance by `chunk_size - overlap`, stopping with the first
window whose end reaches the end of the section (a later start still short
of the end is not visited); in particular a single 1000-word section with
`chunk_size = 500`, `overlap = 50` yields exactly three windows, at word
offsets 0, 450 and 900, the last only 100 words long. -/
theorem chunk_window_arithmetic (words : List (List Char))
    (hwords : ∀ w ∈ words, w ≠ [] ∧ w.all (fun ch => !isPySpace ch)) :
    (∀ c o start chunks fuel, o < c → words.length - start + 1 ≤ fuel →
      chunkLoop c o words fuel (start : ℤ) chunks =
        some (chunks ++ refWindows c o words start)) ∧
    (words.length = 1000 →
      chunkLoop 500 50 words 1001 ((0 : ℕ) : ℤ) [] =
        some [joinSpace (words.take 500), joinSpace ((words.drop 450).take 500),
          joinSpace (words.drop 900)]) := by
  refine ⟨fun c o start chunks fuel ho hfuel =>
    chunkLoop_eq_refWindows c o ho words hwords fuel start chunks hfuel, ?_⟩
  intro hlen
  rw [chunkLoop_eq_refWindows 500 50 (by norm_num) words hwords 1001 0 [] (by omega),
    List.nil_append]
  rw [show refWindows 500 50 words 0 =
      [joinSpace (words.take 500), joinSpace ((words.drop 450).take 500),
        joinSpace (words.drop 900)] from ?_]
  rw [refWindows, dif_pos ⟨by omega, by norm_num⟩]
  dsimp only
  rw [if_neg (by omega)]
  rw [refWindows, dif_pos ⟨by omega, by norm_num⟩]
  dsimp only
  rw [if_neg (by omega)]
  rw [refWindows, dif_pos ⟨by omega, by norm_num⟩]
  dsimp only
  rw [if_pos (by omega)]
  have h450 : 0 + (500 - 50) = 450 := by norm_num
  have h900 : 0 + (500 - 50) + (500 - 50) = 900 := by norm_num
  rw [h450, h900]
  have ht1 : min (0 + 500) words.length - 0 = 500 := by omega
  have ht2 : min (450 + 500) words.length - 450 = 500 := by omega
  have ht3 : min (900 + 500) words.length - 900 = 100 := by omega
  rw [ht1, ht2, ht3, List.drop_zero]
  rw [show (words.drop 900).take 100 = words.drop 900 from
    List.take_of_length_le (by simp [hlen])]

/-- Witness for C4 (amended) at a concrete three-word section. -/
theorem chunk_window_arithmetic_witness :
    (∀ c o start chunks fuel, o < c →
      ([['a'], ['b'], ['c']] : List (List Char)).length - start + 1 ≤ fuel →
      chunkLoop c o [['a'], ['b'], ['c']] fuel (start : ℤ) chunks =
        some (chunks ++ refWindows c o [['a'], ['b'], ['c']] start)) ∧
    (([['a'], ['b'], ['c']] : List (List Char)).length = 1000 →
      chunkLoop 500 50 [['a'], ['b'], ['c']] 1001 ((0 : ℕ) : ℤ) [] =
        some [joinSpace (([['a'], ['b'], ['c']] : List (List Char)).take 500),
          joinSpace ((([['a'], ['b'], ['c']] : List (List Char)).drop 450).take 500),
          joinSpace (([['a'], ['b'], ['c']] : List (List Char)).drop 900)]) :=
  chunk_window_arithmetic [['a'], ['b'], ['c']] (by decide)

/-! ### C10: termination of the chunk loop -/

theorem chunkLoop_isSome (c o : ℕ) (ho : o < c) (words : List (List Char))
    (fuel : ℕ) : ∀ (start : ℕ) (chunks : List (List Char)),
    words.length - start + 1 ≤ fuel →
    (chunkLoop c o words fuel (start : ℤ) chunks).isSome := by
  induction fuel with
  | zero => intro start chunks h; omega
  | succ fuel ih =>
    intro start chunks hfuel
    by_cases hlt : start < words.length
    · rw [chunkLoop, if_pos (by exact_mod_cast hlt)]
      dsimp only
      by_cases hend : (words.length : ℤ) ≤ min ((start : ℤ) + (c : ℤ)) ((words.length : ℤ))
      · rw [if_pos hend]
        simp
      · rw [if_neg hend]
        have hcast : min ((start : ℤ) + (c : ℤ)) ((words.length : ℤ)) =
            ((min (start + c) words.length : ℕ) : ℤ) := by
          push_cast
          rfl
        have heq : min (start + c) words.length = start + c := by
          have hc : ¬ words.length ≤ min (start + c) words.length := by
            intro hcon
            exact hend (by rw [hcast]; exact_mod_cast hcon)
          omega
        have hstep : min ((start : ℤ) + (c : ℤ)) ((words.length : ℤ)) - (o : ℤ) =
            ((start + (c - o) : ℕ) : ℤ) := by
          rw [hcast, heq]
          push_cast
          omega
        rw [hstep]
        exact ih (start + (c - o)) _ (by omega)
    · rw [chunkLoop, if_neg (by exact_mod_cast hlt)]
      simp

theorem chunkLoop_stuck (c o : ℕ) (hco : c ≤ o) (words : List (List Char))
    (hlen : c < words.length) (fuel : ℕ) :
    ∀ (start : ℤ) (chunks : List (List Char)), start ≤ 0 →
    chunkLoop c o words fuel start chunks = none := by
  induction fuel with
  | zero => intro start chunks h; rfl
  | succ fuel ih =>
    intro start chunks hstart
    have hclen : (c : ℤ) < (words.length : ℤ) := by exact_mod_cast hlen
    rw [chunkLoop, if_pos (by omega)]
    dsimp only
    have he : min (start + (c : ℤ)) ((words.length : ℤ)) = start + c := by omega
    rw [he, if_neg (by omega)]
    exact ih (start + c - o) _ (by omega)

theorem splitsOn_section_length (secs : List (List Char)) (t : List Char)
    (h : SplitsOn secs t) : ∀ s ∈ secs, s.length ≤ t.length := by
  induction h with
  | single s =>
    intro s' hs'
    rw [List.mem_singleton.mp hs']
  | cons s m t' rest hm hrest ih =>
    intro s' hs'
    rcases List.mem_cons.mp hs' with rfl | hs'
    · simp [List.length_append]
    · have := ih s' hs'
      simp only [List.length_append]
      omega

theorem pySplitWs_count_le (l : List Char) : ∀ acc : List Char,
    (pySplitWs l acc).length ≤ l.length + (if acc.isEmpty then 0 else 1) := by
  induction l with
  | nil =>
    intro acc
    by_cases h : acc.isEmpty <;> simp [pySplitWs, h]
  | cons c cs ih =>
    intro acc
    by_cases hsp : isPySpace c
    · by_cases hacc : acc.isEmpty
      · rw [pySplitWs, if_pos hsp, if_pos hacc]
        have := ih []
        simp only [List.isEmpty_nil, if_pos] at this
        simp only [List.length_cons]
        omega
      · rw [pySplitWs, if_pos hsp, if_neg hacc]
        have := ih []
        simp only [List.isEmpty_nil, if_pos] at this
        simp only [List.length_cons, List.length_cons, if_neg hacc]
        omega
    · rw [pySplitWs, if_neg hsp]
      have h1 : (pySplitWs cs (c :: acc)).length ≤ cs.length + 1 := by
        simpa using ih (c :: acc)
      simp only [List.length_cons]
      omega

theorem chunkSections_isSome (c o : ℕ) (ho : o < c) (fuel : ℕ) :
    ∀ (sections : List (List Char)) (chunks : List (List Char)),
    (∀ sec ∈ sections, (pySplitWs sec []).length + 1 ≤ fuel) →
    (sections.foldlM
      (fun chunks sec =>
        let words := pySplitWs sec []
        if words.isEmpty then pure chunks
        else chunkLoop c o words fuel 0 chunks)
      chunks).isSome := by
  intro sections
  induction sections with
  | nil => intro chunks _; rfl
  | cons sec rest ih =>
    intro chunks hsec
    rw [List.foldlM_cons]
    dsimp only
    by_cases hw : (pySplitWs sec []).isEmpty
    · rw [if_pos hw]
      have := ih chunks fun s hs => hsec s (List.mem_cons_of_mem _ hs)
      simpa using this
    · rw [if_neg hw]
      have hsome := chunkLoop_isSome c o ho (pySplitWs sec []) fuel 0 chunks
        (by have := hsec sec (List.mem_cons_self _ _); omega)
      rcases hres : chunkLoop c o (pySplitWs sec []) fuel ((0 : ℕ) : ℤ) chunks
        with _ | chunks'
      · rw [hres] at hsome
        cases hsome
      · have := ih chunks' fun s hs => hsec s (List.mem_cons_of_mem _ hs)
        simpa using this

/-- C10. With `overlap < chunk_size` (the defaults are 64 < 512) the chunker
terminates on every input text: fuel `text.length + 1` completes every
section's loop, and fuel `words.length + 1` completes the loop on any single
section. The precondition is necessary: when `chunk_size ≤ overlap` and a
section has more than `chunk_size` words, the window start never moves
forward and no amount of fuel completes the loop. -/
theorem chunk_text_termination (c o : ℕ) :
    (o < c → ∀ text : List Char, (chunkTextFuel (text.length + 1) text c o).isSome) ∧
    (o < c → ∀ (words : List (List Char)) (chunks : List (List Char)),
      (chunkLoop c o words (words.length + 1) 0 chunks).isSome) ∧
    (c ≤ o → ∀ words : List (List Char), c < words.length →
      ∀ (fuel : ℕ) (chunks : List (List Char)),
        chunkLoop c o words fuel 0 chunks = none) := by
  refine ⟨?_, ?_, ?_⟩
  · intro ho text
    have hsecs : ∀ sec ∈ splitHeadings text 0 true [],
        (pySplitWs sec []).length + 1 ≤ text.length + 1 := by
      intro sec hsec
      have h1 : sec.length ≤ text.length :=
        splitsOn_section_length _ _
          (by simpa using splitHeadings_splitsOn_aux text 0 true []) sec hsec
      have h2 := pySplitWs_count_le sec []
      simp only [List.isEmpty_nil, if_pos] at h2
      omega
    have hfold := chunkSections_isSome c o ho (text.length + 1)
      (splitHeadings text 0 true []) [] hsecs
    unfold chunkTextFuel
    have hmap : ∀ (x : Option (List (List Char)))
        (f : List (List Char) → List (List Char)),
        x.isSome = true → (Option.map f x).isSome = true := by
      intro x f hx
      cases x
      · exact absurd hx (by simp)
      · simp
    exact hmap _ _ hfold
  · intro ho words chunks
    have := chunkLoop_isSome c o ho words (words.length + 1) 0 chunks (by omega)
    simpa using this
  · intro hco words hlen fuel chunks
    exact chunkLoop_stuck c o hco words hlen fuel 0 chunks (by norm_num)

/-! ## Rehydration (`rehydration.py`)

`rehydrate` is modelled over a static snapshot of every filesystem/store
primitive it touches (single-threaded execution, no concurrent
modification): each fallible primitive's outcome is an `Except` field of
`FS`, with `Unit` for the exception payload. Warning strings are abstracted
to tags — the claims concern which warnings are recorded, not their
formatted text. -/

inductive RWarning where
  | vectorStoreError : RWarning
      -- "Vector store unavailable: {exc}"
  | snapshotAbsent : RWarning
      -- "ACTIVE_MEMORY.md absent — graceful degradation (P-007)"
  | snapshotStale (ageHours threshold : ℚ) : RWarning
      -- "ACTIVE_MEMORY.md is {age:.1f}h old (threshold: {t}h) — ..."
  | snapshotReadError : RWarning
      -- "Could not read ACTIVE_MEMORY.md: {exc}"

/-- Outcomes of the primitives `rehydrate` and its loaders call. -/
structure FS where
  /-- `VectorStore(path)` construction and query over it (one `try` block). -/
  storeIndex : Except Unit (List (List Char × Document))
  /-- `_ACTIVE_MEMORY_PATH.exists()` (never raises). -/
  snapshotExists : Bool
  /-- `.stat().st_mtime`, caught as `OSError`. -/
  snapshotStat : Except Unit ℚ
  /-- `.read_text(..., errors="replace")`, caught as `OSError`. -/
  snapshotRead : Except Unit (List Char)
  /-- `datetime.now(timezone.utc)` in seconds. -/
  now : ℚ
  /-- `_TELEMETRY_DIR.exists()`. -/
  telemetryDirExists : Bool
  /-- `glob("run-*.json")`: each file's `st_mtime` and its read+parse outcome. -/
  telemetryFiles : List (ℚ × Except Unit JValue)
  /-- `ORG_REPO_INDEX.json` `exists()`. -/
  orgIndexExists : Bool
  /-- its `read_text` + `json.loads`, caught together. -/
  orgIndexRead : Except Unit JValue

/-- The structured result of `_load_active_memory`. -/
structure ActiveMemory where
  available : Bool
  content : List Char
  age_hours : Option ℚ
  warning : Option RWarning

/-- Python `round(x, 2)` on the age (half-even vs half-up is immaterial to
the claims). -/
def round2 (q : ℚ) : ℚ := (round (q * 100) : ℤ) / 100

/-- `_load_active_memory`: absent file → warning; stat/read `OSError` →
warning (overwriting a staleness warning set before the read, as the code's
`except` does); stale but readable → staleness warning with the content kept. -/
def loadActiveMemory (fs : FS) (threshold : ℚ) : ActiveMemory :=
  if ¬ fs.snapshotExists then
    { available := false, content := [], age_hours := none,
      warning := some .snapshotAbsent }
  else
    match fs.snapshotStat with
    | .error _ =>
      { available := false, content := [], age_hours := none,
        warning := some .snapshotReadError }
    | .ok mtime =>
      let age := (fs.now - mtime) / 3600
      let staleW : Option RWarning :=
        if age > threshold then some (.snapshotStale age threshold) else none
      match fs.snapshotRead with
      | .error _ =>
        { available := false, content := [], age_hours := some (round2 age),
          warning := some .snapshotReadError }
      | .ok content =>
        { available := true, content := content, age_hours := some (round2 age),
          warning := staleW }

/-- `_load_recent_telemetry`: absent dir → `[]`; newest files first (stable
sort by mtime descending), parse the first `max_entries`, silently skipping
any that fail to parse. -/
def loadRecentTelemetry (fs : FS) (max_entries : ℕ) : List JValue :=
  if ¬ fs.telemetryDirExists then []
  else
    ((sortDescBy Prod.fst fs.telemetryFiles).take max_entries).filterMap
      fun f => f.2.toOption

/-- `_load_org_index`: `{}` when the file is absent or fails to read/parse. -/
def loadOrgIndex (fs : FS) : JValue :=
  if ¬ fs.orgIndexExists then .obj []
  else
    match fs.orgIndexRead with
    | .error _ => .obj []
    | .ok j => j

/-- One entry of the bundle's `vector_hits`. -/
structure VectorHit where
  score : ℝ
  id : List Char
  content : List Char
  metadata : List (List Char × JValue)

/-- Python `round(score, 4)`. -/
noncomputable def round4 (x : ℝ) : ℝ := (round (x * 10000) : ℤ) / 10000

/-- The context dict `rehydrate` returns. `active_memory = none` models the
empty `{}` used when `include_active_memory` is off; `org_repos` is whatever
value the code assigns (`org_index.get("repositories", [])` for a dict
index, the list itself for a list index, `[]` otherwise). -/
structure ContextBundle where
  vector_hits : List VectorHit
  active_memory : Option ActiveMemory
  recent_runs : List JValue
  org_repos : JValue
  warnings : List RWarning
  rehydrated_at : List Char
  query : List Char

/-- `rehydrate(query, top_k=…, include_…=…, store=…)`. `nowIso` stands for
`datetime.now(timezone.utc).isoformat()`. -/
noncomputable def rehydrate (fs : FS) (query_text : List Char) (top_k : ℕ)
    (include_active_memory include_telemetry include_org_index : Bool)
    (store : Option (List (List Char × Document))) (threshold : ℚ)
    (nowIso : List Char) : ContextBundle :=
  let storeRes : Except Unit (List (List Char × Document)) :=
    match store with
    | some idx => .ok idx
    | none => fs.storeIndex
  let vector_hits : List VectorHit :=
    match storeRes with
    | .ok idx =>
      (query idx query_text top_k none).map fun p =>
        { score := round4 p.1, id := p.2.id, content := p.2.content.take 400,
          metadata := p.2.metadata }
    | .error _ => []
  let warnings1 : List RWarning :=
    match storeRes with
    | .ok _ => []
    | .error _ => [.vectorStoreError]
  let active_memory : Option ActiveMemory :=
    if include_active_memory then some (loadActiveMemory fs threshold) else none
  let warnings2 : List RWarning :=
    warnings1 ++
      match active_memory with
      | some am =>
        match am.warning with
        | some w => [w]
        | none => []
      | none => []
  let recent_runs : List JValue :=
    if include_telemetry then loadRecentTelemetry fs 5 else []
  let org_repos : JValue :=
    if include_org_index then
      match loadOrgIndex fs with
      | .obj kvs => (jLookup kvs "repositories".toList).getD (.arr [])
      | .arr xs => .arr xs
      | _ => .arr []
    else .arr []
  { vector_hits := vector_hits, active_memory := active_memory,
    recent_runs := recent_runs, org_repos := org_repos, warnings := warnings2,
    rehydrated_at := nowIso, query := query_text }

/-- C6. `rehydrate` always yields a `ContextBundle` (it is a total function
of the primitives' outcomes: every raising primitive it calls sits inside a
`try`), and each enumerated auxiliary-source failure degrades to a recorded
warning or an empty/absent value: absent snapshot → warning + absent value;
unreadable snapshot → warning + no content; stale snapshot → warning with
the content kept; failed store → warning + no hits; absent telemetry dir →
no runs; unparsable telemetry entries → skipped; absent/unparsable index →
empty repo list. -/
theorem rehydrate_degrades (fs : FS) (q : List Char) (k : ℕ)
    (iam itel iorg : Bool) (store : Option (List (List Char × Document)))
    (threshold : ℚ) (nowIso : List Char) :
    (rehydrate fs q k iam itel iorg store threshold nowIso).query = q ∧
    (rehydrate fs q k iam itel iorg store threshold nowIso).rehydrated_at = nowIso ∧
    (iam = true → fs.snapshotExists = false →
      (rehydrate fs q k iam itel iorg store threshold nowIso).active_memory =
        some ⟨false, [], none, some .snapshotAbsent⟩ ∧
      RWarning.snapshotAbsent ∈
        (rehydrate fs q k iam itel iorg store threshold nowIso).warnings) ∧
    (iam = true → fs.snapshotExists = true →
      (fs.snapshotStat = .error () ∨ fs.snapshotRead = .error ()) →
      RWarning.snapshotReadError ∈
        (rehydrate fs q k iam itel iorg store threshold nowIso).warnings ∧
      ((rehydrate fs q k iam itel iorg store threshold nowIso).active_memory).map
        ActiveMemory.available = some false) ∧
    (iam = true → fs.snapshotExists = true →
      ∀ mtime content, fs.snapshotStat = .ok mtime → fs.snapshotRead = .ok content →
      (fs.now - mtime) / 3600 > threshold →
      RWarning.snapshotStale ((fs.now - mtime) / 3600) threshold ∈
        (rehydrate fs q k iam itel iorg store threshold nowIso).warnings ∧
      (rehydrate fs q k iam itel iorg store threshold nowIso).active_memory =
        some ⟨true, content, some (round2 ((fs.now - mtime) / 3600)),
          some (.snapshotStale ((fs.now - mtime) / 3600) threshold)⟩) ∧
    (store = none → fs.storeIndex = .error () →
      (rehydrate fs q k iam itel iorg store threshold nowIso).vector_hits = [] ∧
      RWarning.vectorStoreError ∈
        (rehydrate fs q k iam itel iorg store threshold nowIso).warnings) ∧
    (fs.telemetryDirExists = false →
      (rehydrate fs q k iam itel iorg store threshold nowIso).recent_runs = []) ∧
    (∀ r ∈ (rehydrate fs q k iam itel iorg store threshold nowIso).recent_runs,
      ∃ m, (m, Except.ok r) ∈ fs.telemetryFiles) ∧
    (rehydrate fs q k iam itel iorg store threshold nowIso).recent_runs.length ≤ 5 ∧
    ((fs.orgIndexExists = false ∨ fs.orgIndexRead = .error ()) →
      (rehydrate fs q k iam itel iorg store threshold nowIso).org_repos = .arr []) := by
  have hwa : (rehydrate fs q k iam itel iorg store threshold nowIso).warnings =
      (match (match store with | some idx => Except.ok idx | none => fs.storeIndex) with
        | .ok _ => []
        | .error _ => [RWarning.vectorStoreError]) ++
      (match (if iam then some (loadActiveMemory fs threshold) else none) with
        | some am =>
          (match am.warning with
            | some w => [w]
            | none => [])
        | none => []) := rfl
  have ham : (rehydrate fs q k iam itel iorg store threshold nowIso).active_memory =
      (if iam then some (loadActiveMemory fs threshold) else none) := rfl
  have hrr : (rehydrate fs q k iam itel iorg store threshold nowIso).recent_runs =
      (if itel then loadRecentTelemetry fs 5 else []) := rfl
  have hor : (rehydrate fs q k iam itel iorg store threshold nowIso).org_repos =
      (if iorg then
        (match loadOrgIndex fs with
          | .obj kvs => (jLookup kvs "repositories".toList).getD (.arr [])
          | .arr xs => .arr xs
          | _ => .arr [])
      else .arr []) := rfl
  refine ⟨rfl, rfl, ?_, ?_, ?_, ?_, ?_, ?_, ?_, ?_⟩
  · intro hiam habs
    subst hiam
    have hload : loadActiveMemory fs threshold = ⟨false, [], none, some .snapshotAbsent⟩ := by
      rw [loadActiveMemory, if_pos (by rw [habs]; exact Bool.false_ne_true)]
    constructor
    · simp [ham, hload]
    · simp [hwa, hload]
  · intro hiam hex herr
    subst hiam
    have hload : (loadActiveMemory fs threshold).warning = some RWarning.snapshotReadError ∧
        (loadActiveMemory fs threshold).available = false := by
      rcases hstat : fs.snapshotStat with e | mtime
      · rw [loadActiveMemory, if_neg (by rw [hex]; simp), hstat]
        exact ⟨rfl, rfl⟩
      · rcases herr with herr | herr
        · rw [herr] at hstat
          cases hstat
        · rw [loadActiveMemory, if_neg (by rw [hex]; simp), hstat]
          dsimp only
          rw [herr]
          exact ⟨rfl, rfl⟩
    constructor
    · simp [hwa, hload.1]
    · simp [ham, hload.2]
  · intro hiam hex mtime content hstat hread hstale
    subst hiam
    have hload : loadActiveMemory fs threshold =
        ⟨true, content, some (round2 ((fs.now - mtime) / 3600)),
          some (.snapshotStale ((fs.now - mtime) / 3600) threshold)⟩ := by
      rw [loadActiveMemory, if_neg (by rw [hex]; simp), hstat]
      dsimp only
      rw [hread, if_pos hstale]
    constructor
    · simp [hwa, hload]
    · simp [ham, hload]
  · intro hstore herr
    subst hstore
    have hvh : (rehydrate fs q k iam itel iorg none threshold nowIso).vector_hits =
        (match fs.storeIndex with
          | .ok idx =>
            (query idx q k none).map fun p =>
              { score := round4 p.1, id := p.2.id, content := p.2.content.take 400,
                metadata := p.2.metadata }
          | .error _ => []) := rfl
    constructor
    · rw [hvh, herr]
    · rw [hwa, herr]
      exact List.mem_append_left _ (List.mem_singleton_self _)
  · intro hdir
    rw [hrr]
    cases itel with
    | false => rw [if_neg (by exact Bool.false_ne_true)]
    | true =>
      rw [if_pos rfl, loadRecentTelemetry, if_pos (by rw [hdir]; simp)]
  · intro r hr
    rw [hrr] at hr
    rcases itel with _ | _
    · rw [if_neg (by exact Bool.false_ne_true)] at hr
      cases hr
    · rw [if_pos rfl, loadRecentTelemetry] at hr
      by_cases hdir : fs.telemetryDirExists
      · rw [if_neg (by rw [hdir]; simp)] at hr
        rcases List.mem_filterMap.mp hr with ⟨f, hf, hfr⟩
        have hf2 : f ∈ sortDescBy Prod.fst fs.telemetryFiles := List.take_subset _ _ hf
        have hf3 : f ∈ fs.telemetryFiles := (sortDescBy_perm _ _).mem_iff.mp hf2
        obtain ⟨m, res⟩ := f
        refine ⟨m, ?_⟩
        cases res with
        | error e => simp [Except.toOption] at hfr
        | ok v =>
          have hvr : v = r := by simpa [Except.toOption] using hfr
          exact hvr ▸ hf3
      · rw [if_pos (by simpa using hdir)] at hr
        cases hr
  · rw [hrr]
    rcases itel with _ | _
    · rw [if_neg (by exact Bool.false_ne_true)]
      simp
    · rw [if_pos rfl, loadRecentTelemetry]
      by_cases hdir : fs.telemetryDirExists
      · rw [if_neg (by rw [hdir]; simp)]
        calc (((sortDescBy Prod.fst fs.telemetryFiles).take 5).filterMap
                fun f => f.2.toOption).length
            ≤ ((sortDescBy Prod.fst fs.telemetryFiles).take 5).length :=
              List.length_filterMap_le _ _
          _ ≤ 5 := (List.length_take _ _).le.trans (min_le_left _ _)
      · rw [if_pos (by simpa using hdir)]
        simp
  · intro herr
    rw [hor]
    rcases iorg with _ | _
    · rw [if_neg (by exact Bool.false_ne_true)]
    · rw [if_pos rfl]
      have hidx : loadOrgIndex fs = .obj [] := by
        rw [loadOrgIndex]
        rcases herr with herr | herr
        · rw [if_pos (by rw [herr]; simp)]
        · by_cases hex : fs.orgIndexExists
          · rw [if_neg (by simpa using hex), herr]
          · rw [if_pos (by simpa using hex)]
      rw [hidx]
      simp [jLookup]

end InfinityMemory
